import Mathlib

/-!
Verification development for the graph-turbulence simulation core
(`src/core/observable.py`): Observable / VertexObservable / EdgeObservable /
System.  Python float vectors are embedded as `List ℚ` (exact arithmetic),
dictionaries as association lists in insertion order, and `None` as
`Option.none`.  The scipy `RK45` integrator is external to the repository;
where a claim depends on its behaviour it is modelled as an arbitrary
explicit Runge-Kutta method (of which RK45 is an instance) taking
arbitrarily many sub-steps of arbitrary sizes.
-/

namespace GraphTurbulence

/-- Modelled from the spec: the helper `replace` comes from the repository's
`utils` package, which is not present under `src/` (only `src/utils/zmq.py`
is).  Per the spec ("overwrites `y` at Dirichlet indices with their fixed
values") and its call sites, `replace arr idx vals` returns `arr` with the
entry at position `idx[j]` overwritten by `vals[j]`, mirroring numpy fancy
assignment `arr[idx] = vals` (later duplicate indices win). -/
def replace (xs : List ℚ) (idx : List ℕ) (vals : List ℚ) : List ℚ :=
  (idx.zip vals).foldl (fun a p => a.set p.1 p.2) xs

/-- Embeds `Observable.populate`: evaluate `f` at every domain element in
index order (`[f(x) for x in self.domain.keys()]`). -/
def populate {α : Type} (domain : List α) (f : α → ℚ) : List ℚ :=
  domain.map f

/-- Embeds the closure `g` installed by `Observable.set_ode`: the
order-reduced augmented right-hand side.  Block `i` (for `i < order-1`) of
the derivative is block `i+1` of the state, and the top block is
`replace(f(t), fixed_idx, zeros)`. -/
def gRHS (f : ℚ → List ℚ) (order n : ℕ) (fixedIdx : List ℕ) (t : ℚ)
    (y : List ℚ) : List ℚ :=
  (((List.range (order - 1)).map (fun i => (y.drop (n * (i + 1))).take n)).flatten)
    ++ replace (f t) fixedIdx (List.replicate fixedIdx.length 0)

/- Generic explicit Runge-Kutta machinery modelling scipy RK45 sub-steps. -/

/-- Pointwise sum of two vectors. -/
def vadd (u v : List ℚ) : List ℚ := List.zipWith (· + ·) u v

/-- Scalar multiple of a vector. -/
def smulVec (c : ℚ) (u : List ℚ) : List ℚ := u.map (fun x => c * x)

/-- Linear combination `Σ a i • ks i`, starting from the zero vector of
dimension `dim`. -/
def lincomb (dim : ℕ) (a : List ℚ) (ks : List (List ℚ)) : List ℚ :=
  (List.zipWith smulVec a ks).foldl vadd (List.replicate dim 0)

/-- Stage derivatives of an explicit Runge-Kutta method with Butcher rows
`tab` (each row: node `c_i` and coefficients `a_i`): stage `i` evaluates the
right-hand side `g` at `y + h * Σ_j a_ij k_j`. -/
def rkStages (g : ℚ → List ℚ → List ℚ) (t h : ℚ) (y : List ℚ)
    (tab : List (ℚ × List ℚ)) : List (List ℚ) :=
  tab.foldl
    (fun ks ci =>
      ks ++ [g (t + ci.1 * h) (vadd y (smulVec h (lincomb y.length ci.2 ks)))])
    []

/-- One explicit Runge-Kutta step with weights `b`. -/
def rkStep (g : ℚ → List ℚ → List ℚ) (b : List ℚ) (tab : List (ℚ × List ℚ))
    (t h : ℚ) (y : List ℚ) : List ℚ :=
  vadd y (smulVec h (lincomb y.length b (rkStages g t h y tab)))

/-- Repeated Runge-Kutta sub-steps at the given times and step sizes; models
arbitrarily many `step(dt)` calls, each of which loops the integrator until
its time bound. -/
def rkRun (g : ℚ → List ℚ → List ℚ) (b : List ℚ) (tab : List (ℚ × List ℚ))
    (steps : List (ℚ × ℚ)) (y : List ℚ) : List ℚ :=
  steps.foldl (fun z th => rkStep g b tab th.1 th.2 z) y

/- Basic lemmas about `replace`. -/

theorem replace_length (xs : List ℚ) (idx : List ℕ) (vals : List ℚ) :
    (replace xs idx vals).length = xs.length := by
  unfold replace
  generalize idx.zip vals = ps
  induction ps generalizing xs with
  | nil => rfl
  | cons p ps ih => simpa [List.foldl_cons] using ih (xs.set p.1 p.2)

theorem replace_getElem?_of_not_mem (xs : List ℚ) (idx : List ℕ)
    (vals : List ℚ) (i : ℕ) (h : i ∉ idx) :
    (replace xs idx vals)[i]? = xs[i]? := by
  unfold replace
  induction idx generalizing xs vals with
  | nil => rfl
  | cons j idx ih =>
    cases vals with
    | nil => rfl
    | cons w vals =>
      have hj : i ≠ j := fun hc => h (hc ▸ List.mem_cons_self j idx)
      have hrest : i ∉ idx := fun hc => h (List.mem_cons_of_mem j hc)
      simpa [List.zip_cons_cons, List.foldl_cons,
        List.getElem?_set_ne (Ne.symm hj)] using ih (xs.set j w) vals hrest

/-- Auxiliary: folding zero-sets over any further indices keeps a zero entry
zero. -/
theorem foldl_set_zero_keeps (idx : List ℕ) (xs : List ℚ) (i : ℕ)
    (h : xs[i]? = some 0) :
    (idx.foldl (fun a j => a.set j (0 : ℚ)) xs)[i]? = some 0 := by
  induction idx generalizing xs with
  | nil => simpa using h
  | cons j idx ih =>
    simp only [List.foldl_cons]
    apply ih
    rcases eq_or_ne j i with hji | hji
    · subst hji
      have hlt : j < xs.length := by
        by_contra hge
        rw [List.getElem?_eq_none (Nat.le_of_not_lt hge)] at h
        exact Option.noConfusion h
      rw [List.getElem?_set_eq hlt]
    · rw [List.getElem?_set_ne hji]
      exact h

theorem replace_zip_replicate_zero (xs : List ℚ) (idx : List ℕ) :
    replace xs idx (List.replicate idx.length 0) =
      idx.foldl (fun a j => a.set j (0 : ℚ)) xs := by
  unfold replace
  induction idx generalizing xs with
  | nil => rfl
  | cons j idx ih => simpa [List.replicate_succ] using ih (xs.set j 0)

/-- Overwriting with zeros at `idx` makes every in-range index of `idx`
hold zero. -/
theorem replace_zeros_getElem? (xs : List ℚ) (idx : List ℕ) (i : ℕ)
    (hi : i ∈ idx) (hlen : i < xs.length) :
    (replace xs idx (List.replicate idx.length 0))[i]? = some 0 := by
  rw [replace_zip_replicate_zero]
  induction idx generalizing xs with
  | nil => cases hi
  | cons j idx ih =>
    simp only [List.foldl_cons]
    rcases List.mem_cons.mp hi with hij | hmem
    · subst hij
      apply foldl_set_zero_keeps
      rw [List.getElem?_set_eq hlen]
    · exact ih (xs.set j 0) hmem (by simpa using hlen)

/-- With pairwise-distinct indices, `replace` installs each paired value. -/
theorem replace_getElem?_of_mem_zip (xs : List ℚ) (idx : List ℕ)
    (vals : List ℚ) (i : ℕ) (v : ℚ) (hnd : idx.Nodup)
    (hmem : (i, v) ∈ idx.zip vals) (hlen : i < xs.length) :
    (replace xs idx vals)[i]? = some v := by
  induction idx generalizing xs vals with
  | nil => simp [List.zip_nil_left] at hmem
  | cons j idx ih =>
    cases vals with
    | nil => simp [List.zip_nil_right] at hmem
    | cons w vals =>
      rcases List.mem_cons.mp hmem with hhd | htl
      · have hij : i = j := congrArg Prod.fst hhd
        have hvw : v = w := congrArg Prod.snd hhd
        subst hij; subst hvw
        have hni : i ∉ idx := (List.nodup_cons.mp hnd).1
        show (replace (xs.set i v) idx vals)[i]? = some v
        rw [replace_getElem?_of_not_mem _ _ _ _ hni,
          List.getElem?_set_eq hlen]
      · have hnd' : idx.Nodup := (List.nodup_cons.mp hnd).2
        show (replace (xs.set j w) idx vals)[i]? = some v
        exact ih (xs.set j w) vals hnd' htl (by simpa using hlen)

/- Pointwise lemmas about the Runge-Kutta vector operations. -/

theorem getElem?_zipWith_some (fn : ℚ → ℚ → ℚ) (u v : List ℚ) (p : ℕ)
    (a c : ℚ) (hu : u[p]? = some a) (hv : v[p]? = some c) :
    (List.zipWith fn u v)[p]? = some (fn a c) := by
  induction u generalizing v p with
  | nil => simp at hu
  | cons x u ih =>
    cases v with
    | nil => simp at hv
    | cons z v =>
      cases p with
      | zero =>
        simp only [List.getElem?_cons_zero, Option.some.injEq] at hu hv
        simp [hu, hv]
      | succ p =>
        simpa using ih v p (by simpa using hu) (by simpa using hv)

theorem smulVec_getElem? (c : ℚ) (u : List ℚ) (p : ℕ) (a : ℚ)
    (hu : u[p]? = some a) : (smulVec c u)[p]? = some (c * a) := by
  simp [smulVec, List.getElem?_map, hu]

theorem foldl_vadd_length (dim : ℕ) (ws : List (List ℚ)) (acc : List ℚ)
    (hacc : acc.length = dim) (hws : ∀ w ∈ ws, w.length = dim) :
    (ws.foldl vadd acc).length = dim := by
  induction ws generalizing acc with
  | nil => simpa using hacc
  | cons w ws ih =>
    rw [List.foldl_cons]
    refine ih (vadd acc w) ?_ (fun w' hw' => hws w' (List.mem_cons_of_mem w hw'))
    simp [vadd, List.length_zipWith, hacc, hws w (List.mem_cons_self w ws)]

theorem foldl_vadd_zero (ws : List (List ℚ)) (acc : List ℚ) (p : ℕ)
    (hacc : acc[p]? = some 0) (hws : ∀ w ∈ ws, w[p]? = some 0) :
    (ws.foldl vadd acc)[p]? = some 0 := by
  induction ws generalizing acc with
  | nil => simpa using hacc
  | cons w ws ih =>
    rw [List.foldl_cons]
    refine ih (vadd acc w) ?_ (fun w' hw' => hws w' (List.mem_cons_of_mem w hw'))
    have := getElem?_zipWith_some (· + ·) acc w p 0 0 hacc
      (hws w (List.mem_cons_self w ws))
    simpa [vadd] using this

theorem mem_zipWith_smulVec (a : List ℚ) (ks : List (List ℚ)) (w : List ℚ)
    (hw : w ∈ List.zipWith smulVec a ks) : ∃ c k, k ∈ ks ∧ w = smulVec c k := by
  induction a generalizing ks with
  | nil => simp at hw
  | cons c a ih =>
    cases ks with
    | nil => simp at hw
    | cons k ks =>
      rcases List.mem_cons.mp (by simpa using hw) with h | h
      · exact ⟨c, k, List.mem_cons_self _ _, h⟩
      · rcases ih ks h with ⟨c', k', hk', hw'⟩
        exact ⟨c', k', List.mem_cons_of_mem _ hk', hw'⟩

theorem lincomb_length (dim : ℕ) (a : List ℚ) (ks : List (List ℚ))
    (hks : ∀ k ∈ ks, k.length = dim) : (lincomb dim a ks).length = dim := by
  refine foldl_vadd_length dim _ _ (List.length_replicate dim 0) ?_
  intro w hw
  rcases mem_zipWith_smulVec a ks w hw with ⟨c, k, hk, rfl⟩
  simp [smulVec, hks k hk]

theorem lincomb_zero_at (dim : ℕ) (a : List ℚ) (ks : List (List ℚ)) (p : ℕ)
    (hp : p < dim) (hks : ∀ k ∈ ks, k[p]? = some 0) :
    (lincomb dim a ks)[p]? = some 0 := by
  refine foldl_vadd_zero _ _ p (List.getElem?_replicate_of_lt hp) ?_
  intro w hw
  rcases mem_zipWith_smulVec a ks w hw with ⟨c, k, hk, rfl⟩
  simpa using smulVec_getElem? c k p 0 (hks k hk)

/- Properties of the order-2 augmented right-hand side. -/

theorem gRHS_two_eq (f : ℚ → List ℚ) (n : ℕ) (fixed : List ℕ) (t : ℚ)
    (z : List ℚ) :
    gRHS f 2 n fixed t z =
      (z.drop n).take n ++ replace (f t) fixed (List.replicate fixed.length 0) := by
  have h1 : List.range 1 = [0] := rfl
  simp [gRHS, h1]

theorem gRHS_two_length (f : ℚ → List ℚ) (n : ℕ) (fixed : List ℕ) (t : ℚ)
    (z : List ℚ) (hz : z.length = 2 * n) (hft : (f t).length = n) :
    (gRHS f 2 n fixed t z).length = 2 * n := by
  rw [gRHS_two_eq]
  simp [List.length_append, List.length_take, List.length_drop,
    replace_length, hz, hft]
  omega

theorem gRHS_two_pos (f : ℚ → List ℚ) (n : ℕ) (fixed : List ℕ) (t : ℚ)
    (z : List ℚ) (hz : z.length = 2 * n) (i : ℕ) (hi : i < n) :
    (gRHS f 2 n fixed t z)[i]? = z[n + i]? := by
  rw [gRHS_two_eq]
  rw [List.getElem?_append_left (by simp [List.length_take, List.length_drop, hz]; omega)]
  rw [List.getElem?_take_of_lt hi, List.getElem?_drop]

theorem gRHS_two_vel (f : ℚ → List ℚ) (n : ℕ) (fixed : List ℕ) (t : ℚ)
    (z : List ℚ) (hz : z.length = 2 * n) (hft : (f t).length = n) (i : ℕ)
    (hi : i < n) (hmem : i ∈ fixed) :
    (gRHS f 2 n fixed t z)[n + i]? = some 0 := by
  rw [gRHS_two_eq]
  have hlen : ((z.drop n).take n).length = n := by
    simp [List.length_take, List.length_drop, hz]; omega
  rw [List.getElem?_append_right (by omega)]
  rw [hlen]
  have : n + i - n = i := by omega
  rw [this]
  exact replace_zeros_getElem? (f t) fixed i hmem (by omega)

/-- Invariant carried by every Runge-Kutta stage derivative of the order-2
system: full length, zero at Dirichlet position indices, zero at Dirichlet
velocity indices. -/
def pinnedK (n : ℕ) (fixed : List ℕ) (k : List ℚ) : Prop :=
  k.length = 2 * n ∧ ∀ i ∈ fixed, k[i]? = some 0 ∧ k[n + i]? = some 0

theorem stage_new_pinnedK (f : ℚ → List ℚ) (n : ℕ) (fixed : List ℕ)
    (hf : ∀ t, (f t).length = n) (hfix : ∀ i ∈ fixed, i < n)
    (y : List ℚ) (hy : y.length = 2 * n)
    (hvel : ∀ i ∈ fixed, y[n + i]? = some 0)
    (t' h : ℚ) (a : List ℚ) (ks : List (List ℚ))
    (hks : ∀ k ∈ ks, pinnedK n fixed k) :
    pinnedK n fixed
      (gRHS f 2 n fixed t' (vadd y (smulVec h (lincomb y.length a ks)))) := by
  have hlc : (lincomb y.length a ks).length = y.length :=
    lincomb_length y.length a ks (fun k hk => (hks k hk).1.trans hy.symm)
  have hsm : (smulVec h (lincomb y.length a ks)).length = y.length := by
    simp [smulVec, hlc]
  have hzlen : (vadd y (smulVec h (lincomb y.length a ks))).length = 2 * n := by
    simp only [vadd]
    rw [List.length_zipWith, hsm, min_self, hy]
  have hzvel : ∀ i ∈ fixed,
      (vadd y (smulVec h (lincomb y.length a ks)))[n + i]? = some 0 := by
    intro i hi
    have hlt : n + i < y.length := by have := hfix i hi; omega
    have h1 : (lincomb y.length a ks)[n + i]? = some 0 :=
      lincomb_zero_at y.length a ks (n + i) hlt
        (fun k hk => ((hks k hk).2 i hi).2)
    have h2 := smulVec_getElem? h _ (n + i) 0 h1
    have h3 := getElem?_zipWith_some (· + ·) y _ (n + i) 0 (h * 0)
      (hvel i hi) h2
    simpa [vadd] using h3
  refine ⟨gRHS_two_length f n fixed t' _ hzlen (hf t'), ?_⟩
  intro i hi
  constructor
  · rw [gRHS_two_pos f n fixed t' _ hzlen i (hfix i hi)]
    exact hzvel i hi
  · exact gRHS_two_vel f n fixed t' _ hzlen (hf t') i (hfix i hi) hi

theorem rkStages_pinnedK (f : ℚ → List ℚ) (n : ℕ) (fixed : List ℕ)
    (hf : ∀ t, (f t).length = n) (hfix : ∀ i ∈ fixed, i < n)
    (y : List ℚ) (hy : y.length = 2 * n)
    (hvel : ∀ i ∈ fixed, y[n + i]? = some 0)
    (t h : ℚ) (tab : List (ℚ × List ℚ)) :
    ∀ k ∈ rkStages (gRHS f 2 n fixed) t h y tab, pinnedK n fixed k := by
  unfold rkStages
  suffices H : ∀ (tab : List (ℚ × List ℚ)) (ks : List (List ℚ)),
      (∀ k ∈ ks, pinnedK n fixed k) →
      ∀ k ∈ tab.foldl
        (fun ks ci => ks ++
          [gRHS f 2 n fixed (t + ci.1 * h)
            (vadd y (smulVec h (lincomb y.length ci.2 ks)))]) ks,
        pinnedK n fixed k by
    exact H tab [] (by intro k hk; cases hk)
  intro tab
  induction tab with
  | nil => intro ks hks k hk; exact hks k hk
  | cons ci tab ih =>
    intro ks hks k hk
    rw [List.foldl_cons] at hk
    refine ih _ ?_ k hk
    intro k' hk'
    rcases List.mem_append.mp hk' with h1 | h1
    · exact hks k' h1
    · rcases List.mem_singleton.mp h1 with rfl
      exact stage_new_pinnedK f n fixed hf hfix y hy hvel _ h ci.2 ks hks

theorem rkStep_pinned (f : ℚ → List ℚ) (n : ℕ) (fixed : List ℕ)
    (hf : ∀ t, (f t).length = n) (hfix : ∀ i ∈ fixed, i < n)
    (b : List ℚ) (tab : List (ℚ × List ℚ)) (t h : ℚ)
    (y : List ℚ) (hy : y.length = 2 * n)
    (hvel : ∀ i ∈ fixed, y[n + i]? = some 0) :
    (rkStep (gRHS f 2 n fixed) b tab t h y).length = 2 * n ∧
      ∀ i ∈ fixed,
        (rkStep (gRHS f 2 n fixed) b tab t h y)[i]? = y[i]? ∧
        (rkStep (gRHS f 2 n fixed) b tab t h y)[n + i]? = some 0 := by
  have hks := rkStages_pinnedK f n fixed hf hfix y hy hvel t h tab
  have hlc : (lincomb y.length b (rkStages (gRHS f 2 n fixed) t h y tab)).length
      = y.length :=
    lincomb_length y.length b _ (fun k hk => (hks k hk).1.trans hy.symm)
  have hsm : (smulVec h (lincomb y.length b
      (rkStages (gRHS f 2 n fixed) t h y tab))).length = y.length := by
    simp [smulVec, hlc]
  constructor
  · simp only [rkStep, vadd]
    rw [List.length_zipWith, hsm, min_self, hy]
  · intro i hi
    have hin : i < n := hfix i hi
    constructor
    · have hlt : i < y.length := by omega
      have h1 : (lincomb y.length b (rkStages (gRHS f 2 n fixed) t h y tab))[i]?
          = some 0 :=
        lincomb_zero_at y.length b _ i (by omega)
          (fun k hk => ((hks k hk).2 i hi).1)
      have h2 := smulVec_getElem? h _ i 0 h1
      have hy_i : y[i]? = some (y.get ⟨i, hlt⟩) := by
        rw [List.getElem?_eq_getElem hlt]; rfl
      have h3 := getElem?_zipWith_some (· + ·) y _ i (y.get ⟨i, hlt⟩) (h * 0)
        hy_i h2
      have h3' : (rkStep (gRHS f 2 n fixed) b tab t h y)[i]?
          = some (y.get ⟨i, hlt⟩ + h * 0) := h3
      rw [h3', hy_i]
      norm_num
    · have hlt : n + i < y.length := by omega
      have h1 : (lincomb y.length b
          (rkStages (gRHS f 2 n fixed) t h y tab))[n + i]? = some 0 :=
        lincomb_zero_at y.length b _ (n + i) (by omega)
          (fun k hk => ((hks k hk).2 i hi).2)
      have h2 := smulVec_getElem? h _ (n + i) 0 h1
      have h3 := getElem?_zipWith_some (· + ·) y _ (n + i) 0 (h * 0)
        (hvel i hi) h2
      have h3' : (rkStep (gRHS f 2 n fixed) b tab t h y)[n + i]?
          = some (0 + h * 0) := h3
      rw [h3']
      norm_num

theorem rkRun_pinned (f : ℚ → List ℚ) (n : ℕ) (fixed : List ℕ)
    (hf : ∀ t, (f t).length = n) (hfix : ∀ i ∈ fixed, i < n)
    (b : List ℚ) (tab : List (ℚ × List ℚ)) (steps : List (ℚ × ℚ))
    (y : List ℚ) (hy : y.length = 2 * n)
    (hvel : ∀ i ∈ fixed, y[n + i]? = some 0) :
    ∀ i ∈ fixed,
      (rkRun (gRHS f 2 n fixed) b tab steps y)[i]? = y[i]? ∧
      (rkRun (gRHS f 2 n fixed) b tab steps y)[n + i]? = some 0 := by
  induction steps generalizing y with
  | nil => intro i hi; exact ⟨rfl, hvel i hi⟩
  | cons th steps ih =>
    intro i hi
    have hstep := rkStep_pinned f n fixed hf hfix b tab th.1 th.2 y hy hvel
    have hrun : rkRun (gRHS f 2 n fixed) b tab (th :: steps) y =
        rkRun (gRHS f 2 n fixed) b tab steps
          (rkStep (gRHS f 2 n fixed) b tab th.1 th.2 y) := by
      simp [rkRun]
    rw [hrun]
    have hnext := ih (rkStep (gRHS f 2 n fixed) b tab th.1 th.2 y) hstep.1
      (fun j hj => (hstep.2 j hj).2) i hi
    exact ⟨hnext.1.trans (hstep.2 i hi).1, hnext.2⟩

/-- C1: for an Observable configured with `set_ode(order=2)` and a Dirichlet
boundary via `set_boundary` (position block overwritten with the fixed values
at `fixed_idx`), with zero initial velocity at the Dirichlet-constrained
indices, the top-level derivative block of the installed right-hand side is
zero at `fixed_idx`, and any number of explicit Runge-Kutta steps (of which
scipy RK45 sub-steps are instances), at any times and of any sizes, leaves
`y` at each Dirichlet-constrained index equal to its configured fixed
value. -/
theorem dirichlet_pinned_under_stepping
    (f : ℚ → List ℚ) (n : ℕ) (fixed : List ℕ) (vals : List ℚ)
    (ypos yvel : List ℚ) (b : List ℚ) (tab : List (ℚ × List ℚ))
    (steps : List (ℚ × ℚ))
    (hf : ∀ t, (f t).length = n)
    (hfix : ∀ i ∈ fixed, i < n)
    (hnd : fixed.Nodup)
    (hypos : ypos.length = n) (hyvel : yvel.length = n)
    (hvz : ∀ i ∈ fixed, yvel[i]? = some 0) :
    (∀ t z, z.length = 2 * n → ∀ i ∈ fixed,
        (gRHS f 2 n fixed t z)[n + i]? = some 0)
    ∧ ∀ i v, (i, v) ∈ fixed.zip vals →
        (rkRun (gRHS f 2 n fixed) b tab steps
          (replace ypos fixed vals ++ yvel))[i]? = some v := by
  constructor
  · intro t z hz i hi
    exact gRHS_two_vel f n fixed t z hz (hf t) i (hfix i hi) hi
  · intro i v hmem
    have hif : i ∈ fixed := (List.of_mem_zip hmem).1
    have hin : i < n := hfix i hif
    have hrl : (replace ypos fixed vals).length = n :=
      (replace_length _ _ _).trans hypos
    have hy0len : (replace ypos fixed vals ++ yvel).length = 2 * n := by
      rw [List.length_append, hrl, hyvel]; omega
    have hy0vel : ∀ j ∈ fixed,
        (replace ypos fixed vals ++ yvel)[n + j]? = some 0 := by
      intro j hj
      rw [List.getElem?_append_right (by rw [hrl]; omega)]
      rw [hrl]
      have hsub : n + j - n = j := by omega
      rw [hsub]
      exact hvz j hj
    have hrun := rkRun_pinned f n fixed hf hfix b tab steps _ hy0len hy0vel i hif
    rw [hrun.1]
    rw [List.getElem?_append_left (by rw [hrl]; omega)]
    exact replace_getElem?_of_mem_zip ypos fixed vals i v hnd hmem (by omega)

/-- Witness for C1 at a concrete instance: one pinned vertex with fixed value
1, a nonzero forcing term, a two-stage tableau and two sub-steps. -/
theorem dirichlet_pinned_under_stepping_witness :
    (rkRun (gRHS (fun _ => [5]) 2 1 [0]) [1/2, 1/2] [(0, []), (1/2, [1/2])]
      [(0, 1/10), (1/10, 1/5)]
      (replace [0] [0] [1] ++ [0]))[0]? = some 1 := by
  have h := dirichlet_pinned_under_stepping (fun _ => [5]) 1 [0] [1] [0] [0]
    [1/2, 1/2] [(0, []), (1/2, [1/2])] [(0, 1/10), (1/10, 1/5)]
    (fun _ => rfl) (by decide) (by decide) (by decide) (by decide) (by decide)
  exact h.2 0 1 (by decide)

/- State-machine embedding of the Observable class. -/

/-- Integrator record modelling the scipy `RK45` object as installed by
`set_ode`: its current time, its internal augmented state vector, and its
maximum sub-step bound (`none` models `np.inf`, the default of `set_ode`). -/
structure Integ where
  t : ℚ
  y : List ℚ
  maxStep : Option ℚ

/-- Reference to a tracked Observable (`track_other`): the fields of the
other Observable that `track`, `measure` and the tracking branch of `reset`
read; `call` is the other Observable's `__call__`. -/
structure ObsRef (α : Type) where
  kind : String
  domain : List α
  call : α → ℚ
  t : ℚ
  t0 : ℚ
  y0 : α → ℚ
  dirichlet : List (α × ℚ)
  neumann : List (α × ℚ)

/-- State of an `Observable` as set up by `Observable.__init__` and mutated
by the public operations.  `kind` stands for `type(self).__name__`, graph
domains are element lists in stable index order, dictionaries are
association lists in insertion order.  In Python `f` and `order` are absent
until `set_ode` assigns them; the constructor embedding gives them inert
placeholders (`fun t => []` and `1`). -/
structure ObsState (α : Type) where
  kind : String
  domain : List α
  n : ℕ
  y : List ℚ
  y0 : α → ℚ
  t : ℚ
  t0 : ℚ
  initKwargs : List (α → ℚ)
  f : ℚ → List ℚ
  order : ℕ
  integrator : Option Integ
  trackOther : Option (ObsRef α)
  dirichlet : List (α × ℚ)
  neumann : List (α × ℚ)
  fixedIdx : List ℕ
  neumannVec : List ℚ
  nonphysical : List ℚ → Bool

/-- Embeds `Observable.__init__` (the core fields; rendering fields are part
of the excluded visualization collaborator). -/
def mkObs {α : Type} (kind : String) (domain : List α) : ObsState α where
  kind := kind
  domain := domain
  n := domain.length
  y := List.replicate domain.length 0
  y0 := fun _ => 0
  t := 0
  t0 := 0
  initKwargs := []
  f := fun _ => []
  order := 1
  integrator := none
  trackOther := none
  dirichlet := []
  neumann := []
  fixedIdx := []
  neumannVec := List.replicate domain.length 0
  nonphysical := fun _ => false

/-- Embeds numpy slice assignment `xs[start : start + vals.length] = vals`. -/
def setSlice (xs : List ℚ) (start : ℕ) (vals : List ℚ) : List ℚ :=
  xs.take start ++ vals ++ xs.drop (start + vals.length)

/-- Embeds the augmented initial state built inside `set_ode`:
`y0 = concatenate((self.y, zeros((order-1)*n)))` with block `i+1` overwritten
by `populate(y0_i)` for the `i`-th entry of `init_kwargs`. -/
def augmentedY0 {α : Type} (s : ObsState α) : List ℚ :=
  s.initKwargs.enum.foldl
    (fun a p => setSlice a ((p.1 + 1) * s.n) (populate s.domain p.2))
    (s.y ++ List.replicate ((s.order - 1) * s.n) 0)

/-- Embeds `Observable.set_ode`: store `f` and `order`, build the augmented
initial state and install a fresh integrator at time `self.t`.  The Python
method performs no check at all (in particular none on `track_other`). -/
def set_ode {α : Type} (s : ObsState α) (f : ℚ → List ℚ) (order : ℕ)
    (maxStep : Option ℚ) : ObsState α :=
  let s1 := { s with f := f, order := order }
  { s1 with integrator := some ⟨s1.t, augmentedY0 s1, maxStep⟩ }

/-- Embeds `Observable.track` with its three assertions, in source order. -/
def track {α : Type} [DecidableEq α] (s : ObsState α) (other : ObsRef α) :
    Except String (ObsState α) :=
  if s.kind ≠ other.kind then
    Except.error "Cannot track observable of another type"
  else if s.integrator.isSome = true then
    Except.error "Cannot track values and compute ODE together"
  else if ¬ (∀ k ∈ s.domain, k ∈ other.domain) then
    Except.error "self.domain must be a subset of other.domain"
  else Except.ok { s with trackOther := some other }

/-- Embeds `Observable.set_initial`.  The count assertion
(`len(kwargs) == self.order - 1`, written here as `length + 1 = order` to
match Python integer arithmetic) runs only inside the
`if self.integrator is not None` branch; on failure the Python object is
left partially mutated, which no claim observes, so the error discards the
state. -/
def set_initial {α : Type} [DecidableEq α] (s : ObsState α) (t0 : ℚ)
    (y0 : α → ℚ) (kwargs : List (α → ℚ)) : Except String (ObsState α) :=
  let s1 := { s with t0 := t0, t := t0, y0 := y0,
                     y := populate s.domain y0, initKwargs := kwargs }
  if s1.integrator.isSome = true then
    if kwargs.length + 1 = s1.order then
      Except.ok (set_ode s1 s1.f s1.order none)
    else Except.error "initial conditions provided do not match the order"
  else Except.ok s1

/-- Embeds `Observable.set_boundary`: reject overlapping Dirichlet/Neumann
key sets, store both maps, recompute `neumann_vec` and `fixed_idx`,
overwrite `y` at the Dirichlet indices, and rebuild any installed integrator
with default `max_step`. -/
def set_boundary {α : Type} [DecidableEq α] (s : ObsState α)
    (dv nv : List (α × ℚ)) : Except String (ObsState α) :=
  if ∃ k ∈ dv.map Prod.fst, k ∈ nv.map Prod.fst then
    Except.error "Dirichlet and Neumann conditions overlap"
  else
    let fixedIdx := dv.map (fun p => s.domain.indexOf p.1)
    let s1 := { s with
      dirichlet := dv, neumann := nv,
      neumannVec := replace (List.replicate s.n 0)
        (nv.map (fun p => s.domain.indexOf p.1)) (nv.map Prod.snd),
      fixedIdx := fixedIdx,
      y := replace s.y fixedIdx (dv.map Prod.snd) }
    if s1.integrator.isSome = true then
      Except.ok (set_ode s1 s1.f s1.order none)
    else Except.ok s1

/-- Embeds `Observable.reset`: re-apply the stored (or, when tracking, the
tracked Observable's) initial and boundary configuration. -/
def reset {α : Type} [DecidableEq α] (s : ObsState α) :
    Except String (ObsState α) :=
  match s.trackOther with
  | none => do
    let s1 ← set_initial s s.t0 s.y0 s.initKwargs
    set_boundary s1 s1.dirichlet s1.neumann
  | some o => do
    let s1 ← set_initial s o.t0 o.y0 []
    set_boundary s1 o.dirichlet o.neumann

/-- Embeds the state refresh at the start of `Observable.measure` (the
integrator branch is `_measure_integrator`): copy `t` and the top-`n` block
of the integrator state, or read every domain element through the tracked
Observable. -/
def measurePre {α : Type} (s : ObsState α) : ObsState α :=
  match s.integrator with
  | some i => { s with t := i.t, y := i.y.take s.n }
  | none =>
    match s.trackOther with
    | some o => { s with t := o.t, y := s.domain.map o.call }
    | none => s

/-- Embeds `Observable.measure`: refresh state, then raise iff the installed
nonphysical predicate holds on the refreshed vector, else return it.
(The render hook belongs to the excluded visualization layer.) -/
def measure {α : Type} (s : ObsState α) : Except String (ObsState α × List ℚ) :=
  let s1 := measurePre s
  if s1.nonphysical s1.y = true then Except.error "Non-physical solution"
  else Except.ok (s1, s1.y)

/- Characterization lemmas for the configuration operations. -/

theorem set_initial_ok_rebuild {α : Type} [DecidableEq α] (s : ObsState α)
    (t0 : ℚ) (y0 : α → ℚ) (kwargs : List (α → ℚ))
    (hint : s.integrator.isSome = true)
    (hkw : kwargs.length + 1 = s.order) :
    set_initial s t0 y0 kwargs =
      Except.ok (set_ode
        { s with t0 := t0, t := t0, y0 := y0,
                 y := populate s.domain y0, initKwargs := kwargs }
        s.f s.order none) := by
  simp only [set_initial]
  rw [if_pos hint, if_pos hkw]

theorem set_boundary_ok_rebuild {α : Type} [DecidableEq α] (s : ObsState α)
    (dv nv : List (α × ℚ))
    (hint : s.integrator.isSome = true)
    (hov : ¬ ∃ k ∈ dv.map Prod.fst, k ∈ nv.map Prod.fst) :
    set_boundary s dv nv =
      Except.ok (set_ode
        { s with
          dirichlet := dv, neumann := nv,
          neumannVec := replace (List.replicate s.n 0)
            (nv.map (fun p => s.domain.indexOf p.1)) (nv.map Prod.snd),
          fixedIdx := dv.map (fun p => s.domain.indexOf p.1),
          y := replace s.y (dv.map (fun p => s.domain.indexOf p.1))
            (dv.map Prod.snd) }
        s.f s.order none) := by
  simp only [set_boundary]
  rw [if_neg hov, if_pos hint]

/-- C3 (amended): `set_ode` performs no `track_other` check and succeeds on
any state, leaving `track_other` untouched while installing an integrator;
`track`, by contrast, always fails when an integrator is installed.  The
mutual-exclusion invariant is therefore enforced only in the `track`
direction. -/
theorem mutual_exclusion_one_sided {α : Type} [DecidableEq α]
    (s : ObsState α) (other : ObsRef α) (f : ℚ → List ℚ) (ord : ℕ)
    (ms : Option ℚ) :
    ((set_ode s f ord ms).integrator.isSome = true
      ∧ (set_ode s f ord ms).trackOther = s.trackOther)
    ∧ (s.integrator.isSome = true → ∃ e, track s other = Except.error e) := by
  refine ⟨⟨rfl, rfl⟩, ?_⟩
  intro hint
  unfold track
  by_cases hk : s.kind ≠ other.kind
  · rw [if_pos hk]; exact ⟨_, rfl⟩
  · rw [if_neg hk, if_pos hint]; exact ⟨_, rfl⟩

/-- Fresh two-vertex Observable used by the concrete counterexamples. -/
def obsA : ObsState ℕ := mkObs "VertexObservable" [0, 1]

/-- Reference mirroring a compatible Observable on a superset domain. -/
def refB : ObsRef ℕ :=
  ⟨"VertexObservable", [0, 1, 2], fun _ => 0, 0, 0, fun _ => 0, [], []⟩

/-- C3 counterexample: after the public sequence `track` then `set_ode`, the
call to `set_ode` does not fail although `track_other` is set, and the
resulting state has both `integrator` and `track_other` non-null —
contradicting the claim as stated. -/
theorem set_ode_while_tracking_cex :
    ∃ s1 : ObsState ℕ, track obsA refB = Except.ok s1
      ∧ (set_ode s1 (fun _ => [0, 0]) 1 none).integrator.isSome = true
      ∧ (set_ode s1 (fun _ => [0, 0]) 1 none).trackOther.isSome = true :=
  ⟨{ obsA with trackOther := some refB }, rfl, rfl, rfl⟩

/-- Observable with an installed ODE and a finite `max_step`; the `set_ode`
call mirrors `set_ode(f, order=1, max_step=1)`. -/
def obsC : ObsState ℕ := set_ode (mkObs "VertexObservable" [0]) (fun _ => [0]) 1 (some 1)

/-- Witness for C3 (amended) at a concrete state with an installed
integrator. -/
theorem mutual_exclusion_one_sided_witness :
    ((set_ode obsC (fun _ => [0]) 1 none).integrator.isSome = true
      ∧ (set_ode obsC (fun _ => [0]) 1 none).trackOther = obsC.trackOther)
    ∧ (∃ e, track obsC refB = Except.error e) :=
  ⟨(mutual_exclusion_one_sided obsC refB (fun _ => [0]) 1 none).1,
   (mutual_exclusion_one_sided obsC refB (fun _ => [0]) 1 none).2 rfl⟩

/-- C8 (amended): `set_initial` fails exactly when an integrator is
installed and the number of extra named initial-condition functions differs
from `order - 1`; with no integrator installed no count check happens at
all. -/
theorem set_initial_check_iff {α : Type} [DecidableEq α] (s : ObsState α)
    (t0 : ℚ) (y0 : α → ℚ) (kwargs : List (α → ℚ)) :
    (∃ e, set_initial s t0 y0 kwargs = Except.error e) ↔
      (s.integrator.isSome = true ∧ kwargs.length + 1 ≠ s.order) := by
  by_cases h1 : s.integrator.isSome = true <;>
    by_cases h2 : kwargs.length + 1 = s.order <;>
      simp [set_initial, h1, h2]

/-- C8 counterexample: on a freshly constructed Observable (no integrator
installed), `set_initial` with one extra named initial-condition function
succeeds, although the count (1) differs from `order - 1` — the claim's
"fails regardless of whether an integrator is currently installed" is
false.  (In Python the fresh object does not even have an `order` attribute;
the embedding's placeholder is `1`.) -/
theorem set_initial_unchecked_cex :
    (List.length ([fun _ => (1 : ℚ)] : List (ℕ → ℚ)) + 1 ≠ obsA.order)
    ∧ ∃ s' : ObsState ℕ,
        set_initial obsA 0 (fun _ => 0) [fun _ => 1] = Except.ok s' :=
  ⟨by decide, ⟨_, rfl⟩⟩

/-- Witness for C8 (amended) at `obsC`: with an integrator installed and a
wrong count, `set_initial` does fail. -/
theorem set_initial_check_iff_witness :
    ∃ e, set_initial obsC 0 (fun _ => (0 : ℚ)) [fun _ => 1] = Except.error e :=
  (set_initial_check_iff obsC 0 (fun _ => 0) [fun _ => 1]).mpr ⟨rfl, by decide⟩

/-- C10: when `set_initial` or `set_boundary` resets an installed integrator
it rebuilds it through `set_ode(self.f, self.order)` with the default
`max_step=np.inf`; a previously configured finite `max_step` is not
preserved — the rebuilt integrator's bound reverts to infinity (`none`). -/
theorem max_step_not_preserved {α : Type} [DecidableEq α] (s : ObsState α)
    (m : ℚ) (i : Integ) (hint : s.integrator = some i)
    (_hms : i.maxStep = some m)
    (t0 : ℚ) (y0 : α → ℚ) (kwargs : List (α → ℚ))
    (hkw : kwargs.length + 1 = s.order)
    (dv nv : List (α × ℚ))
    (hov : ¬ ∃ k ∈ dv.map Prod.fst, k ∈ nv.map Prod.fst) :
    (∃ s1, set_initial s t0 y0 kwargs = Except.ok s1
      ∧ ∃ i1, s1.integrator = some i1 ∧ i1.maxStep = none)
    ∧ (∃ s2, set_boundary s dv nv = Except.ok s2
      ∧ ∃ i2, s2.integrator = some i2 ∧ i2.maxStep = none) := by
  have hsome : s.integrator.isSome = true := by rw [hint]; rfl
  constructor
  · exact ⟨_, set_initial_ok_rebuild s t0 y0 kwargs hsome hkw, _, rfl, rfl⟩
  · exact ⟨_, set_boundary_ok_rebuild s dv nv hsome hov, _, rfl, rfl⟩

/-- Witness for C10 at `obsC`, whose installed integrator has finite
`max_step = 1`. -/
theorem max_step_not_preserved_witness :
    (∃ s1, set_initial obsC 0 (fun _ => (0 : ℚ)) [] = Except.ok s1
      ∧ ∃ i1, s1.integrator = some i1 ∧ i1.maxStep = none)
    ∧ (∃ s2, set_boundary obsC [((0 : ℕ), (1 : ℚ))] [] = Except.ok s2
      ∧ ∃ i2, s2.integrator = some i2 ∧ i2.maxStep = none) :=
  max_step_not_preserved obsC 1 _ rfl rfl 0 (fun _ => 0) [] rfl
    [(0, 1)] [] (by simp)

/-- C7: `measure` raises exactly when the installed nonphysical predicate
holds on the refreshed state vector, and otherwise returns the current value
vector; when tracking (no integrator), the refresh sets `t` to the tracked
Observable's `t` and recomputes every domain element's value by reading
`other(x)` for each `x` in the domain. -/
theorem measure_raises_iff_nonphysical {α : Type} [DecidableEq α]
    (s : ObsState α) :
    ((∃ e, measure s = Except.error e) ↔
      (measurePre s).nonphysical (measurePre s).y = true)
    ∧ (∀ s1 v, measure s = Except.ok (s1, v) → v = s1.y)
    ∧ (s.integrator = none → ∀ o, s.trackOther = some o →
        (measurePre s).t = o.t ∧ (measurePre s).y = s.domain.map o.call) := by
  refine ⟨?_, ?_, ?_⟩
  · by_cases h : (measurePre s).nonphysical (measurePre s).y = true <;>
      simp [measure, h]
  · intro s1 v h
    unfold measure at h
    by_cases hc : (measurePre s).nonphysical (measurePre s).y = true
    · rw [if_pos hc] at h; cases h
    · rw [if_neg hc] at h
      cases h
      rfl
  · intro hint o hto
    unfold measurePre
    rw [hint, hto]
    exact ⟨rfl, rfl⟩

/-- Tracked-Observable reference used by the C7 witness. -/
def refW : ObsRef ℕ :=
  ⟨"VertexObservable", [0, 1, 2], fun x => (x : ℚ) + 1, 7, 0, fun _ => 0, [], []⟩

/-- Tracking Observable used by the C7 witness. -/
def obsW : ObsState ℕ := { mkObs "VertexObservable" [0, 1] with trackOther := some refW }

/-- Witness for C7 at a concrete tracking Observable. -/
theorem measure_raises_iff_nonphysical_witness :
    (measurePre obsW).t = refW.t
    ∧ (measurePre obsW).y = obsW.domain.map refW.call :=
  (measure_raises_iff_nonphysical obsW).2.2 rfl refW rfl

/-- Helper: on a non-tracking Observable with an installed integrator and a
consistent stored configuration, `reset` succeeds and its result has the
re-derived time and state plus unchanged stored configuration. -/
theorem reset_ok_fields {α : Type} [DecidableEq α] (s : ObsState α)
    (htr : s.trackOther = none)
    (hint : s.integrator.isSome = true)
    (hkw : s.initKwargs.length + 1 = s.order)
    (hov : ¬ ∃ k ∈ s.dirichlet.map Prod.fst, k ∈ s.neumann.map Prod.fst) :
    ∃ s1, reset s = Except.ok s1
      ∧ s1.t = s.t0
      ∧ s1.y = replace (populate s.domain s.y0)
          (s.dirichlet.map (fun p => s.domain.indexOf p.1))
          (s.dirichlet.map Prod.snd)
      ∧ s1.trackOther = none
      ∧ s1.integrator.isSome = true
      ∧ s1.initKwargs = s.initKwargs ∧ s1.order = s.order
      ∧ s1.dirichlet = s.dirichlet ∧ s1.neumann = s.neumann
      ∧ s1.t0 = s.t0 ∧ s1.y0 = s.y0 ∧ s1.domain = s.domain := by
  have hA := set_initial_ok_rebuild s s.t0 s.y0 s.initKwargs hint hkw
  have hstep : reset s =
      set_boundary
        (set_ode
          { s with t0 := s.t0, t := s.t0, y0 := s.y0,
                   y := populate s.domain s.y0, initKwargs := s.initKwargs }
          s.f s.order none)
        s.dirichlet s.neumann := by
    unfold reset
    rw [hA, htr]
    rfl
  have hB := set_boundary_ok_rebuild
    (set_ode
      { s with t0 := s.t0, t := s.t0, y0 := s.y0,
               y := populate s.domain s.y0, initKwargs := s.initKwargs }
      s.f s.order none)
    s.dirichlet s.neumann rfl hov
  exact ⟨_, hstep.trans hB, rfl, rfl, htr, rfl, rfl, rfl, rfl, rfl, rfl, rfl, rfl⟩

/-- C6 counterexample: the claim as stated is false on a reachable state.
Public sequence: fresh Observable, `set_ode(f, order=2)` (leaving
`init_kwargs` empty), then `set_boundary({0: 5}, {})` — and now `reset`
raises: inside `reset`, `set_initial` re-runs with the stored empty
`init_kwargs`, the integrator is installed, and the count assertion
`len(kwargs) == order - 1` (i.e. `0 = 1`) fires, so `t`/`y` are not
restored and the Dirichlet value is never re-applied. -/
theorem reset_unmatched_kwargs_cex :
    ∃ s2 : ObsState ℕ,
      set_boundary (set_ode (mkObs "VertexObservable" [0]) (fun _ => [0]) 2 none)
          [(0, 5)] [] = Except.ok s2
        ∧ s2.trackOther = none
        ∧ s2.integrator.isSome = true
        ∧ s2.initKwargs = []
        ∧ s2.order = 2
        ∧ ∃ e, reset s2 = Except.error e :=
  ⟨_, rfl, rfl, rfl, rfl, rfl, _, rfl⟩

/-- C6 (amended): on a non-tracking Observable with an installed ODE whose
stored configuration is self-consistent — exactly `order - 1` stored
higher-order initial-condition functions (as any completed
`set_initial` matching the installed order guarantees) and disjoint stored
boundary maps — `reset`, after any sequence of `step` calls, i.e. from any
current `t` and `y`, restores `t = t0` and `y = populate(y0)` with the
Dirichlet boundary values re-applied on top, and it is idempotent: a second
`reset` leaves the same `t` and `y`.  (Without the count precondition,
`reset` raises instead: see the counterexample.) -/
theorem reset_restores_and_idempotent {α : Type} [DecidableEq α]
    (s : ObsState α)
    (htr : s.trackOther = none)
    (hint : s.integrator.isSome = true)
    (hkw : s.initKwargs.length + 1 = s.order)
    (hov : ¬ ∃ k ∈ s.dirichlet.map Prod.fst, k ∈ s.neumann.map Prod.fst) :
    ∃ s1, reset s = Except.ok s1
      ∧ s1.t = s.t0
      ∧ s1.y = replace (populate s.domain s.y0)
          (s.dirichlet.map (fun p => s.domain.indexOf p.1))
          (s.dirichlet.map Prod.snd)
      ∧ ∃ s2, reset s1 = Except.ok s2 ∧ s2.t = s1.t ∧ s2.y = s1.y := by
  obtain ⟨s1, hres, ht1, hy1, htr1, hint1, hkw1, hord1, hd1, hn1, ht01, hy01, hdom1⟩ :=
    reset_ok_fields s htr hint hkw hov
  have hkw1' : s1.initKwargs.length + 1 = s1.order := by
    rw [hkw1, hord1]; exact hkw
  have hov1 : ¬ ∃ k ∈ s1.dirichlet.map Prod.fst, k ∈ s1.neumann.map Prod.fst := by
    rw [hd1, hn1]; exact hov
  obtain ⟨s2, hres2, ht2, hy2, _, _, _, _, _, _, _, _, _⟩ :=
    reset_ok_fields s1 htr1 hint1 hkw1' hov1
  refine ⟨s1, hres, ht1, hy1, s2, hres2, ?_, ?_⟩
  · rw [ht2, ht01, ht1]
  · rw [hy2, hdom1, hy01, hd1, hy1]

/-- Witness for C6 at `obsC` (installed first-order ODE, empty boundary). -/
theorem reset_restores_and_idempotent_witness :
    ∃ s1, reset obsC = Except.ok s1
      ∧ s1.t = obsC.t0
      ∧ s1.y = replace (populate obsC.domain obsC.y0)
          (obsC.dirichlet.map (fun p => obsC.domain.indexOf p.1))
          (obsC.dirichlet.map Prod.snd)
      ∧ ∃ s2, reset s1 = Except.ok s2 ∧ s2.t = s1.t ∧ s2.y = s1.y :=
  reset_restores_and_idempotent obsC rfl rfl rfl (by decide)

/- Embedding of the state assignment in `Observable.integrate`. -/

/-- Embeds `self.y = sol.y[:len(self)]` in `Observable.integrate`.  scipy's
`sol.y` is the solution matrix, given here as its list of rows (one row per
augmented-state component, one column per accepted time point); Python's
`[:n]` on the first axis keeps the first `n` rows, each a full time
series. -/
def integrate_y_code (solRows : List (List ℚ)) (n : ℕ) : List (List ℚ) :=
  solRows.take n

/-- Modelled from the spec: the value `integrate` is specified to store —
"sets `t = tf` and `y` to the final top-`n` block", i.e. the entries of the
last column of the first `n` rows of the solution matrix: a length-`n`
vector of scalars. -/
def integrate_y_spec (solRows : List (List ℚ)) (n : ℕ) : List ℚ :=
  (solRows.take n).map (fun r => r.getLastD 0)

/-- C2 (code bug): for `n = 1`, `order = 1` and a `solve_ivp` solution with
two accepted time points (`sol.y = [[1, 2]]`), `integrate` stores as `y` the
full per-component time series `[[1, 2]]`: its single entry is a length-2
row, not the scalar final value, so `y` is not the length-`n` final top
block required by the claim (`[2]`), and the state-vector invariant is
broken.  The code would need `sol.y[:n, -1]`. -/
theorem integrate_y_bug :
    integrate_y_code [[1, 2]] 1 = [[1, 2]]
    ∧ integrate_y_spec [[1, 2]] 1 = [2]
    ∧ (integrate_y_code [[1, 2]] 1).map List.length = [2]
    ∧ integrate_y_code [[1, 2]] 1 ≠
        (integrate_y_spec [[1, 2]] 1).map (fun q => [q]) := by
  refine ⟨rfl, rfl, rfl, by decide⟩

/- Embedding of the EdgeObservable dual-adjacency construction. -/

/-- Degree of vertex `v` in the edge list (no self-loops or multi-edges in
the graphs considered). -/
def nodeDegree (edges : List (ℕ × ℕ)) (v : ℕ) : ℕ :=
  (edges.filter (fun e => e.1 == v || e.2 == v)).length

/-- Embeds the `inv_deg` diagonal: `0` for degree ≤ 1 vertices, else
`1/degree`. -/
def invDegEntry (edges : List (ℕ × ℕ)) (v : ℕ) : ℚ :=
  if nodeDegree edges v ≤ 1 then 0 else 1 / (nodeDegree edges v : ℚ)

/-- Embeds the oriented incidence matrix entry of networkx: `-1` at the edge
tail, `+1` at the head, `0` elsewhere. -/
def incEntry (v : ℕ) (e : ℕ × ℕ) : ℚ :=
  if v = e.1 then -1 else if v = e.2 then 1 else 0

/-- Entry `(i, j)` of `inc.T @ inv_deg @ inc` over the vertex list. -/
def matB (nodes : List ℕ) (edges : List (ℕ × ℕ)) (i j : ℕ) : ℚ :=
  (nodes.map (fun v =>
    incEntry v (edges.getD i (0, 0)) * invDegEntry edges v *
      incEntry v (edges.getD j (0, 0)))).sum

/-- Embeds `self.vertex_dual_adj = inc.T @ inv_deg @ inc @ off_diag` from
`EdgeObservable.__init__`: note `@ off_diag` is a matrix product with
`1 - eye`, so entry `(i, j)` is `Σ_k B[i,k] * (if k = j then 0 else 1)`,
i.e. `rowsum_i(B) - B[i,j]` — not an elementwise zeroing of the diagonal. -/
def vertex_dual_adj (nodes : List ℕ) (edges : List (ℕ × ℕ)) (i j : ℕ) : ℚ :=
  ((List.range edges.length).map
    (fun k => matB nodes edges i k * (if k = j then 0 else 1))).sum

/-- Embeds `EdgeObservable.weight`: look up `vertex_dual_adj` at the two
edges' domain indices. -/
def weightEdge (nodes : List ℕ) (edges : List (ℕ × ℕ)) (x y : ℕ × ℕ) : ℚ :=
  vertex_dual_adj nodes edges (edges.indexOf x) (edges.indexOf y)

/-- Vertex list of the triangle graph. -/
def triNodes : List ℕ := [0, 1, 2]

/-- Edge list of the triangle graph in networkx enumeration order. -/
def triEdges : List (ℕ × ℕ) := [(0, 1), (0, 2), (1, 2)]

/-- C4 (code bug): on the triangle graph (every vertex degree 2, so the
claimed coupling weight is `1/2`), the computed dual matrix has a nonzero
diagonal entry (`(1,1) = 1`), is asymmetric (`(0,1) = 1/2` but
`(1,0) = 3/2`), and `weight((0,1), (1,2)) = 3/2 ≠ 1/2` although the two
edges share endpoint `1` of degree `2`.  The slip is `@ off_diag` (matrix
product) where the cited dual-graph definition requires an elementwise
diagonal mask. -/
theorem vertex_dual_adj_bug :
    vertex_dual_adj triNodes triEdges 1 1 = 1
    ∧ vertex_dual_adj triNodes triEdges 1 1 ≠ 0
    ∧ vertex_dual_adj triNodes triEdges 0 1 = 1 / 2
    ∧ vertex_dual_adj triNodes triEdges 1 0 = 3 / 2
    ∧ vertex_dual_adj triNodes triEdges 0 1 ≠ vertex_dual_adj triNodes triEdges 1 0
    ∧ weightEdge triNodes triEdges (0, 1) (1, 2) = 3 / 2
    ∧ weightEdge triNodes triEdges (0, 1) (1, 2) ≠ 1 / 2 := by
  have hrange : List.range 3 = [0, 1, 2] := rfl
  have hi1 : List.indexOf ((0, 1) : ℕ × ℕ) [(0, 1), (0, 2), (1, 2)] = 0 := rfl
  have hi2 : List.indexOf ((1, 2) : ℕ × ℕ) [(0, 1), (0, 2), (1, 2)] = 2 := rfl
  refine ⟨?_, ?_, ?_, ?_, ?_, ?_, ?_⟩ <;>
    simp [weightEdge, hi1, hi2, vertex_dual_adj, hrange, matB, triNodes,
      triEdges, invDegEntry, nodeDegree, incEntry, List.getD] <;>
    norm_num

/- Embedding of EdgeObservable.__call__. -/

/-- Embeds `EdgeObservable.__call__` in the regime where the numpy
membership test is well defined: `self.orientation` is `np.ones(m)` (one
float `1.0` per edge, never updated), and for a graph with exactly `m = 2`
edges numpy broadcasts the 2-tuple `e` elementwise against the length-2
array, so `e in self.orientation` is true iff an endpoint label equals `1`.
`super().__call__(e)` is `self.y[self.domain[e]]`. -/
def edgeCall (domain : List (ℕ × ℕ)) (y : List ℚ) (e : ℕ × ℕ) : Option ℚ :=
  (y[domain.indexOf e]?).map (fun v => if e.1 = 1 ∨ e.2 = 1 then v else -v)

/-- Edge domain of the 2-edge path graph on nodes 2, 3, 4, in stored
(natural-orientation) order. -/
def pathDomain : List (ℕ × ℕ) := [(2, 3), (3, 4)]

/-- Test function over the path edges. -/
def fPath : ℕ × ℕ → ℚ := fun e => if e = (2, 3) then 5 else 7

/-- C5 (code bug): after `populate(f)`, reading `__call__` at the stored
natural orientation `(2, 3)` returns `-5`, not `f((2,3)) = 5`: the
orientation test `e in self.orientation` checks tuple membership in the
all-ones array (here false, since neither endpoint is `1`), not agreement
with the stored orientation, so the round trip and the sign-flip contract
both fail. -/
theorem edge_call_orientation_bug :
    edgeCall pathDomain (populate pathDomain fPath) (2, 3) = some (-5)
    ∧ fPath (2, 3) = 5
    ∧ some (fPath (2, 3)) ≠ edgeCall pathDomain (populate pathDomain fPath) (2, 3) := by
  refine ⟨by decide, by decide, by decide⟩

/- Embedding of System. -/

/-- Member summary of an Observable as `System.__init__` inspects it:
`typeTag` stands for the concrete class `type(o)`, `graphId` for the
identity of the graph instance `o.G` (`is` comparison), `t` for the member's
current time. -/
structure SysMember where
  typeTag : String
  graphId : ℕ
  t : ℚ

/-- Embeds `System.__init__` with its three assertions in source order
(non-empty; `len(observables) == len(set(type(o) for o in observables))`;
all on the first member's graph instance), storing the member list on
success. -/
def systemInit (obs : List SysMember) : Except String (List SysMember) :=
  if obs.length = 0 then Except.error "Pass some observables"
  else if obs.length ≠ ((obs.map (fun o => o.typeTag)).dedup).length then
    Except.error "Multiple observables on the same domain not currently supported"
  else if ¬ ∀ o ∈ obs, (obs.headD ⟨"", 0, 0⟩).graphId = o.graphId then
    Except.error "All observables must be on the same graph instance"
  else Except.ok obs

/-- Embeds the `System.t` property: the first member's `t`. -/
def systemT (obs : List SysMember) : ℚ := (obs.headD ⟨"", 0, 0⟩).t

theorem length_eq_dedup_iff (l : List String) :
    l.length = l.dedup.length ↔ l.Nodup := by
  constructor
  · intro h
    have heq := List.Sublist.eq_of_length (List.dedup_sublist l) h.symm
    rw [← heq]
    exact List.nodup_dedup l
  · intro h
    rw [List.Nodup.dedup h]

/-- C9: `System` construction fails exactly when the member list is empty,
two members share a concrete type, or some member sits on a different graph
instance than the first; on success it stores the list unchanged and
`System.t` is the first member's `t`. -/
theorem system_init_spec (obs : List SysMember) :
    ((∃ e, systemInit obs = Except.error e) ↔
      (obs = [] ∨ ¬ (obs.map (fun o => o.typeTag)).Nodup
        ∨ ∃ o ∈ obs, o.graphId ≠ (obs.headD ⟨"", 0, 0⟩).graphId))
    ∧ ∀ l, systemInit obs = Except.ok l →
        l = obs ∧ systemT l = (obs.headD ⟨"", 0, 0⟩).t := by
  constructor
  · constructor
    · rintro ⟨e, he⟩
      unfold systemInit at he
      by_cases h0 : obs.length = 0
      · left
        exact List.length_eq_zero.mp h0
      · rw [if_neg h0] at he
        by_cases h1 : obs.length ≠ ((obs.map (fun o => o.typeTag)).dedup).length
        · right; left
          intro hnd
          apply h1
          rw [← List.length_map obs (fun o => o.typeTag)]
          exact (length_eq_dedup_iff _).mpr hnd
        · rw [if_neg h1] at he
          by_cases h2 : ¬ ∀ o ∈ obs, (obs.headD ⟨"", 0, 0⟩).graphId = o.graphId
          · right; right
            push_neg at h2
            rcases h2 with ⟨o, ho, hne⟩
            exact ⟨o, ho, fun hc => hne hc.symm⟩
          · rw [if_neg h2] at he
            cases he
    · intro h
      unfold systemInit
      by_cases h0 : obs.length = 0
      · rw [if_pos h0]
        exact ⟨_, rfl⟩
      · rw [if_neg h0]
        by_cases h1 : obs.length ≠ ((obs.map (fun o => o.typeTag)).dedup).length
        · rw [if_pos h1]
          exact ⟨_, rfl⟩
        · rw [if_neg h1]
          by_cases h2 : ¬ ∀ o ∈ obs, (obs.headD ⟨"", 0, 0⟩).graphId = o.graphId
          · rw [if_pos h2]
            exact ⟨_, rfl⟩
          · exfalso
            push_neg at h1 h2
            rcases h with h | h | h
            · rw [h] at h0
              exact h0 rfl
            · apply h
              apply (length_eq_dedup_iff _).mp
              rw [List.length_map obs (fun o => o.typeTag)]
              exact h1
            · rcases h with ⟨o, ho, hne⟩
              exact hne (h2 o ho).symm
  · intro l hl
    unfold systemInit at hl
    split_ifs at hl
    cases hl
    exact ⟨rfl, rfl⟩

/-- Two distinct-typed members on one graph instance. -/
def sysGood : List SysMember :=
  [⟨"VertexObservable", 5, 3⟩, ⟨"EdgeObservable", 5, 3⟩]

/-- Witness for C9 at a concrete valid member list: construction succeeds
and `System.t` equals the first member's `t`. -/
theorem system_init_spec_witness :
    sysGood = sysGood ∧ systemT sysGood = (sysGood.headD ⟨"", 0, 0⟩).t :=
  (system_init_spec sysGood).2 sysGood rfl

end GraphTurbulence
